import Mathlib

/-!
Verification development for the HarMind knowledge-extraction app
(repository `KnowledgeByAiStudio`).

The definitions below are a shallow embedding of the TypeScript source:

* `src/services/harUtils.ts` — the structural summarizer
  (`extractFirstObject`, `summarizeJsonStructure`, `truncateContent`);
* `src/unnamed/part_003`   — the historical summarizer variant with a
  recursion-depth ceiling (`summarizeJsonStructureV1` below);
* `src/services/geminiService.ts` — the bounded tool-dispatch loop of
  `runHarAgent`;
* `src/tools/dataExtractor.ts` — the sandboxed extraction-code runner;
* `src/App.tsx` (`handleAddEntity`) — the knowledge-graph merge and
  auto-linking heuristic;
* `src/store/projectStore.ts`, `src/tools/knowledge_db/index.ts`,
  `src/tools/scrapingTools.ts` — the scraping-entry store and its
  delete/listing tools;
* `src/unnamed/part_017` (`kgCreateNodeImpl`) — the graph node-creation tool.

JavaScript values that the code manipulates generically are modelled by the
`Json` type; JS arrays and objects become the mutually inductive sequence
types `JsonItems` / `JsonFields` so that the recursive TypeScript functions
become structurally recursive Lean functions.  Numbers are modelled by `Int`:
every function embedded here treats numbers as opaque atoms.
-/

namespace KnowledgeByAi

mutual

inductive Json where
  | null : Json
  | bool (b : Bool) : Json
  | num (n : Int) : Json
  | str (s : String) : Json
  | arr (items : JsonItems) : Json
  | obj (fields : JsonFields) : Json

inductive JsonItems where
  | nil : JsonItems
  | cons (head : Json) (tail : JsonItems) : JsonItems

inductive JsonFields where
  | nil : JsonFields
  | fcons (key : String) (value : Json) (tail : JsonFields) : JsonFields

end

/-- Length of a JS array (`xs.length`). -/
def JsonItems.length : JsonItems → Nat
  | .nil => 0
  | .cons _ t => 1 + t.length

/-- View of a JS array as a Lean list. -/
def JsonItems.toList : JsonItems → List Json
  | .nil => []
  | .cons h t => h :: t.toList

/-- Build a JS array from a Lean list. -/
def JsonItems.ofList : List Json → JsonItems
  | [] => .nil
  | h :: t => .cons h (JsonItems.ofList t)

/-- The keys of a JS object, in insertion order (`Object.keys`). -/
def JsonFields.keys : JsonFields → List String
  | .nil => []
  | .fcons k _ t => k :: t.keys

/-- View of a JS object as an association list (`Object.entries`). -/
def JsonFields.toList : JsonFields → List (String × Json)
  | .nil => []
  | .fcons k v t => (k, v) :: t.toList

/-- JS property access `o[k]`: the value at the first occurrence of key `k`,
`none` when the key is absent (JS `undefined`). -/
def JsonFields.get : JsonFields → String → Option Json
  | .nil, _ => none
  | .fcons k v t, key => if k = key then some v else t.get key

mutual

/-- Embedding of `extractFirstObject` from `src/services/harUtils.ts`
(lines 70–91): `null` and primitives pass through, an array keeps only
the summary of its first element, an object keeps every key and summarizes
every value.  There is no depth parameter and no string truncation. -/
def extractFirstObject : Json → Json
  | .null => .null
  | .bool b => .bool b
  | .num n => .num n
  | .str s => .str s
  | .arr .nil => .arr .nil
  | .arr (.cons x _) => .arr (.cons (extractFirstObject x) .nil)
  | .obj fields => .obj (extractFirstObjectFields fields)

/-- The object branch of `extractFirstObject`: the `for (key in jsonBody)`
loop, recursing on every value and keeping every key. -/
def extractFirstObjectFields : JsonFields → JsonFields
  | .nil => .nil
  | .fcons k v t => .fcons k (extractFirstObject v) (extractFirstObjectFields t)

end

/-- Embedding of `summarizeJsonStructure` from `src/services/harUtils.ts`
(lines 96–98): it ignores its `depth` parameter and delegates to
`extractFirstObject`. -/
def summarizeJsonStructure (obj : Json) (_depth : Nat) : Json :=
  extractFirstObject obj

mutual

/-- Embedding of the historical `summarizeJsonStructure` variant from
`src/unnamed/part_003` (lines 27–52): a recursion-depth ceiling of 5
(deeper sub-values become the marker string), non-empty arrays become the
summarized first element plus an explicit length marker, object keys are
kept, and strings longer than 100 characters are truncated to 50. -/
def summarizeJsonStructureV1 (obj : Json) (depth : Nat) : Json :=
  if 5 < depth then .str "... (max depth)"
  else
    match obj with
    | .arr .nil => .arr .nil
    | .arr (.cons x rest) =>
        .arr (.cons (summarizeJsonStructureV1 x (depth + 1))
          (.cons (.str ("... (" ++ toString rest.length ++ " more items)")) .nil))
    | .obj fields => .obj (summarizeFieldsV1 fields depth)
    | .str s => if 100 < s.length then .str ((s.take 50) ++ "... (truncated)") else .str s
    | j => j

/-- The object branch of the `part_003` summarizer: each value is
summarized at `depth + 1`, keys are kept. -/
def summarizeFieldsV1 (fields : JsonFields) (depth : Nat) : JsonFields :=
  match fields with
  | .nil => .nil
  | .fcons k v t => .fcons k (summarizeJsonStructureV1 v (depth + 1)) (summarizeFieldsV1 t depth)

end

mutual

/-- Nesting depth of a JSON value: leaves have depth 0, a container is one
deeper than its deepest child. -/
def jsonDepth : Json → Nat
  | .null | .bool _ | .num _ | .str _ => 0
  | .arr items => 1 + jsonDepthItems items
  | .obj fields => 1 + jsonDepthFields fields

def jsonDepthItems : JsonItems → Nat
  | .nil => 0
  | .cons h t => max (jsonDepth h) (jsonDepthItems t)

def jsonDepthFields : JsonFields → Nat
  | .nil => 0
  | .fcons _ v t => max (jsonDepth v) (jsonDepthFields t)

end

mutual

/-- Does the depth-exceeded marker string of the `part_003` summarizer
occur anywhere inside a JSON value? -/
def hasDepthMarker : Json → Bool
  | .str s => s = "... (max depth)"
  | .arr items => hasDepthMarkerItems items
  | .obj fields => hasDepthMarkerFields fields
  | _ => false

def hasDepthMarkerItems : JsonItems → Bool
  | .nil => false
  | .cons h t => hasDepthMarker h || hasDepthMarkerItems t

def hasDepthMarkerFields : JsonFields → Bool
  | .nil => false
  | .fcons _ v t => hasDepthMarker v || hasDepthMarkerFields t

end

mutual

/-- Every array occurring anywhere inside the value has at most one
element. -/
def arraysShort : Json → Bool
  | .null | .bool _ | .num _ | .str _ => true
  | .arr items => decide (items.length ≤ 1) && arraysShortItems items
  | .obj fields => arraysShortFields fields

def arraysShortItems : JsonItems → Bool
  | .nil => true
  | .cons h t => arraysShort h && arraysShortItems t

def arraysShortFields : JsonFields → Bool
  | .nil => true
  | .fcons _ v t => arraysShort v && arraysShortFields t

end

/-! ### HAR entries, tool dispatch and the bounded agent loop
(`src/services/geminiService.ts`, `runHarAgent`, lines 35–154) -/

/-- The dataset rows handed to tools (`HarEntryWrapper`).  Only the fields
the embedded code reads are kept; `selected` is the `_selected` flag. -/
structure HarEntryW where
  index : Nat
  id : String
  url : String
  selected : Bool
  responseText : String

/-- A tool invocation requested by the model (`call` in the loop). -/
structure FunctionCall where
  id : Option String
  name : String
  args : Json

/-- One element of `functionResponses` sent back to the model. -/
structure FunctionResponse where
  id : Option String
  name : String
  result : Json

/-- A model reply: requested tool calls plus optional text. -/
structure ModelResponse where
  functionCalls : List FunctionCall
  text : Option String

/-- A tool implementation: it receives the HAR data and the raw argument
object and either returns a JSON result or throws (the `Except.error`
carries `e.message`). -/
abbrev ToolImpl := List HarEntryW → Json → Except String Json

/-- The `toolImplementations` map: tool name to implementation, `none` for
unregistered names. -/
abbrev ToolRegistry := String → Option ToolImpl

/-- A (mock) model: its next reply as a function of the batches of tool
responses sent to it so far.  The initial reply is `model []`. -/
abbrev AgentModel := List (List FunctionResponse) → ModelResponse

/-- The structured result for an unregistered tool name
(`result = { error: ... not implemented. }`, line 122). -/
def unknownToolError (name : String) : Json :=
  Json.obj (.fcons "error" (.str ("Tool \x27" ++ name ++ "\x27 not implemented.")) .nil)

/-- Embedding of the dispatch of one requested call (lines 117–126): look
the name up in `toolImplementations`; a missing name yields the structured
unknown-tool error, a thrown exception is caught and becomes
`{ error: e.message }`. -/
def dispatchCall (impls : ToolRegistry) (harData : List HarEntryW) (c : FunctionCall) : Json :=
  match impls c.name with
  | some f =>
      match f harData c.args with
      | .ok r => r
      | .error msg => Json.obj (.fcons "error" (.str msg) .nil)
  | none => unknownToolError c.name

/-- The `for (const call of functionCalls)` body: dispatch each call in
order and collect the `functionResponse` objects. -/
def runToolCalls (impls : ToolRegistry) (harData : List HarEntryW)
    (calls : List FunctionCall) : List FunctionResponse :=
  calls.map fun c => { id := c.id, name := c.name, result := dispatchCall impls harData c }

/-- Embedding of the `while (response.functionCalls && ... && turns < 5)`
loop (lines 91–151).  `fuel` is only a structural termination device: the
loop is always entered with `turns + fuel = 5`, so the guard `turns < 5`
fails no later than `fuel` reaches 0 and the fuel never cuts the loop
short.  Returns the final response together with the final turn counter. -/
def agentLoop (model : AgentModel) (impls : ToolRegistry) (harData : List HarEntryW) :
    Nat → ModelResponse → Nat → List (List FunctionResponse) → ModelResponse × Nat
  | 0, resp, turns, _ => (resp, turns)
  | fuel + 1, resp, turns, sent =>
      if 0 < resp.functionCalls.length ∧ turns < 5 then
        let batch := runToolCalls impls harData resp.functionCalls
        agentLoop model impls harData fuel (model (sent ++ [batch])) (turns + 1) (sent ++ [batch])
      else (resp, turns)

/-- JS `a || b` on an optional string: `undefined` and the empty string
both fall through to the default. -/
def jsStringOr (t : Option String) (dflt : String) : String :=
  match t with
  | some s => if s = "" then dflt else s
  | none => dflt

/-- Embedding of `runHarAgent` (lines 35–154): get the initial reply, run
the bounded tool-dispatch loop, and return the final text or the
placeholder. -/
def runHarAgent (model : AgentModel) (impls : ToolRegistry) (harData : List HarEntryW) : String :=
  let initialResponse := model []
  let result := agentLoop model impls harData 5 initialResponse 0 []
  jsStringOr result.1.text "I processed the actions but have no text response."

/-! ### The sandboxed extraction-code runner
(`src/tools/dataExtractor.ts`, `runExtractionCodeImpl`, lines 22–53) -/

/-- Outcome of evaluating the model-authored script (the wrapped
`new Function` body): it either throws with a message, or completes with
the value returned by the user code (`none` models JS `undefined`, i.e. no
explicit return), the contents of the implicit `results` accumulator, and
the collected logs. -/
inductive ScriptResult where
  | throws (message : String) (logs : List String)
  | completes (userResult : Option Json) (results : List Json) (logs : List String)

/-- The value returned by `runExtractionCodeImpl`. -/
structure ExtractionResult where
  success : Bool
  count : Option Nat
  data : Option (List Json)
  error : Option String
  logs : List String

/-- Line 23: only the `_selected` entries if any are selected, else all. -/
def activeEntriesOf (harEntries : List HarEntryW) : List HarEntryW :=
  if harEntries.any (fun e => e.selected) then harEntries.filter (fun e => e.selected) else harEntries

/-- The wrapper fallback (lines 37–41): if the user code returned an
array, use it, otherwise fall back to the `results` accumulator. -/
def extractedOf (userResult : Option Json) (results : List Json) : List Json :=
  match userResult with
  | some (.arr xs) => xs.toList
  | _ => results

/-- Embedding of `runExtractionCodeImpl`: run the script against the
active entries inside the `try`; a throw is caught and becomes
`{ success: false, error, logs }`, a completion becomes
`{ success: true, count, data, logs }`.  The function is total: no
exception can escape to the caller. -/
def runExtractionCodeImpl (script : List HarEntryW → ScriptResult)
    (harEntries : List HarEntryW) : ExtractionResult :=
  match script (activeEntriesOf harEntries) with
  | .throws msg logs =>
      { success := false, count := none, data := none, error := some msg, logs := logs }
  | .completes userResult results logs =>
      let extracted := extractedOf userResult results
      { success := true, count := some extracted.length, data := some extracted,
        error := none, logs := logs }

/-! ### Knowledge-graph merge and auto-linking
(`src/App.tsx`, `handleAddEntity`, lines 60–94) and the node-creation tool
(`src/unnamed/part_017`, `kgCreateNodeImpl`, lines 70–79) -/

/-- An extracted entity / graph node (`ExtractedEntity` in
`src/types.ts`). -/
structure ExtractedEntity where
  id : String
  type : String
  label : String
  data : JsonFields

/-- A directed edge (`KnowledgeLink`). -/
structure KnowledgeLink where
  source : String
  target : String
  label : String
  deriving DecidableEq

/-- The graph store state (`KnowledgeGraphData`). -/
structure KnowledgeGraphData where
  nodes : List ExtractedEntity
  links : List KnowledgeLink

/-- JS `s.endsWith(suffix)`, computed on the character list (the builtin
`String.endsWith` is positionally implemented and does not evaluate inside
the kernel). -/
def jsEndsWith (s suffix : String) : Bool :=
  suffix.data.isSuffixOf s.data

/-- The comparison `n.data.id === value` for a string `value`: true
exactly when the `id` key holds a string equal to `value`. -/
def dataIdEquals (n : ExtractedEntity) (v : String) : Bool :=
  match n.data.get "id" with
  | some (.str s) => s == v
  | _ => false

/-- Body of the auto-linking loop over `Object.entries(entity.data)`
(lines 74–86): for a string value under an id-like key, push a forward
edge to the first node whose id equals the value and a reverse edge from
the first node whose `data.id` equals the value, skipping the entity
itself in both searches. -/
def autoLinkStep (nodes : List ExtractedEntity) (entity : ExtractedEntity)
    (links : List KnowledgeLink) : String × Json → List KnowledgeLink
  | (key, .str v) =>
      if jsEndsWith key "Id" || key == "id" then
        let links1 :=
          match nodes.find? (fun n => n.id == v && n.id != entity.id) with
          | some targetNode => links ++ [⟨entity.id, targetNode.id, key⟩]
          | none => links
        match nodes.find? (fun n => dataIdEquals n v && n.id != entity.id) with
        | some sourceNode => links1 ++ [⟨sourceNode.id, entity.id, key⟩]
        | none => links1
      else links
  | (_, _) => links

/-- The node-merge part of the `newEntities.forEach` body (lines 67–70):
append the entity unless a node with its id already exists. -/
def mergeNodesOf (st : KnowledgeGraphData) (entity : ExtractedEntity) : List ExtractedEntity :=
  if (st.nodes.find? (fun n => n.id == entity.id)).isSome then st.nodes
  else st.nodes ++ [entity]

/-- Processing of one entity of the batch (the `newEntities.forEach`
body): merge the node, then run auto-linking against the updated node
list. -/
def handleAddEntityStep (st : KnowledgeGraphData) (entity : ExtractedEntity) : KnowledgeGraphData :=
  let nextNodes := mergeNodesOf st entity
  let nextLinks := entity.data.toList.foldl (autoLinkStep nextNodes entity) st.links
  ⟨nextNodes, nextLinks⟩

/-- Embedding of `handleAddEntity`: fold the batch over the graph state.
Later entities of the batch see the nodes added for earlier ones, exactly
as the mutable `nextNodes` / `nextLinks` arrays do. -/
def handleAddEntity (prev : KnowledgeGraphData) (newEntities : List ExtractedEntity) : KnowledgeGraphData :=
  newEntities.foldl handleAddEntityStep prev

/-- Embedding of `kgCreateNodeImpl` (`src/unnamed/part_017`): the id is
the caller-supplied one or (JS `||`) a generated fallback, and the node is
appended to the node list unconditionally.  Returns the new state and the
id reported in the success acknowledgement. -/
def kgCreateNodeImpl (kg : KnowledgeGraphData) (label ty : String) (data : JsonFields)
    (idArg : Option String) (generatedId : String) : KnowledgeGraphData × String :=
  let newId := jsStringOr idArg generatedId
  (⟨kg.nodes ++ [⟨newId, ty, label, data⟩], kg.links⟩, newId)

/-! ### The scraping-entry store and its delete / listing tools
(`src/store/projectStore.ts` lines 370–400,
`src/tools/knowledge_db/index.ts` lines 19–52 and 145–149,
`src/tools/scrapingTools.ts` lines 101–105) -/

/-- The `ProcessingStatus` enum from `src/types.ts`. -/
inductive ProcessingStatus where
  | unprocessed
  | spFilterer
  | filtered
  | spConverter
  | converted
  | spConvert
  | finalResponse
  deriving DecidableEq

/-- A row of the Knowledge DB (`ScrapingEntry` in `src/types.ts`).  The
optional TS fields `workspace_id` and `notes` are never read by the
embedded code and are omitted; the optional `is_deleted` flag becomes a
`Bool` (JS `undefined` is falsy). -/
structure ScrapingEntry where
  id : String
  source_type_key : String
  url : String
  request : Json
  response : Json
  filterer_json : JsonFields
  converter_code : String
  final_clean_response : JsonFields
  processing_status : ProcessingStatus
  is_deleted : Bool
  created_at : String
  updated_at : String

/-- Embedding of the store action `updateScrapingEntry` (lines 370–385):
map over the rows, and on the matching id apply the updates object and
stamp `updated_at` with the current time (`now` makes the impure
`new Date().toISOString()` an explicit argument). -/
def updateScrapingEntry (entries : List ScrapingEntry) (id : String)
    (applyUpdates : ScrapingEntry → ScrapingEntry) (now : String) : List ScrapingEntry :=
  entries.map fun e => if e.id == id then { applyUpdates e with updated_at := now } else e

/-- Embedding of the store action `deleteScrapingEntry` (lines 387–400):
it filters the row out of the list — a physical removal. -/
def deleteScrapingEntryStore (entries : List ScrapingEntry) (id : String) : List ScrapingEntry :=
  entries.filter fun e => e.id != id

/-- Embedding of the `db_delete_row` tool (`dbDeleteRowImpl`): set
`is_deleted` via the update action. -/
def dbDeleteRowImpl (entries : List ScrapingEntry) (row_id : String) (now : String) : List ScrapingEntry :=
  updateScrapingEntry entries row_id (fun e => { e with is_deleted := true }) now

/-- Embedding of the `delete_scraping_entry` tool
(`deleteScrapingEntryImpl`): it calls the store delete action. -/
def deleteScrapingEntryImpl (entries : List ScrapingEntry) (id : String) : List ScrapingEntry :=
  deleteScrapingEntryStore entries id

/-- The row lookup performed by `db_look_request`
(`dbLookRequestImpl`, line 72): find by id, with no `is_deleted` check. -/
def dbFindRow (entries : List ScrapingEntry) (row_id : String) : Option ScrapingEntry :=
  entries.find? fun e => e.id == row_id

/-- The per-group accumulator of `db_look_tables` (`groups[slug]`). -/
structure GroupAcc where
  count : Nat
  status : ProcessingStatus
  primary_filter_json : JsonFields

/-- One row of the `db_look_tables` output. -/
structure GroupRow where
  group_slug : String
  status : ProcessingStatus
  primary_filter_json : JsonFields
  count : Nat

/-- Body of the `entries.forEach` of `dbListTablesImpl`
(`src/tools/knowledge_db/index.ts` lines 26–44): skip soft-deleted rows,
create the group on first sight, bump its count, and let a final or
filtered row take over the representative status and filter.  The JS
object `groups` becomes an insertion-ordered association list. -/
def listTablesStep (groups : List (String × GroupAcc)) (e : ScrapingEntry) : List (String × GroupAcc) :=
  if e.is_deleted then groups
  else
    let slug := e.source_type_key
    let groups1 :=
      if (groups.lookup slug).isSome then groups
      else groups ++ [(slug, ⟨0, e.processing_status, e.filterer_json⟩)]
    groups1.map fun g =>
      if g.1 == slug then
        let acc := { g.2 with count := g.2.count + 1 }
        if e.processing_status = ProcessingStatus.finalResponse ∨ 0 < e.filterer_json.keys.length then
          (g.1, { acc with status := e.processing_status, primary_filter_json := e.filterer_json })
        else (g.1, acc)
      else g

/-- Embedding of the `db_look_tables` tool (`dbListTablesImpl`): group the
non-deleted rows and emit one output row per group, in insertion order. -/
def dbListTablesImpl (entries : List ScrapingEntry) : List GroupRow :=
  (entries.foldl listTablesStep []).map fun g =>
    ⟨g.1, g.2.status, g.2.primary_filter_json, g.2.count⟩

/-! ## Helper lemmas for the structural summarizer -/

mutual

theorem extractFirstObject_idem : ∀ j : Json,
    extractFirstObject (extractFirstObject j) = extractFirstObject j
  | .null => rfl
  | .bool _ => rfl
  | .num _ => rfl
  | .str _ => rfl
  | .arr .nil => rfl
  | .arr (.cons x _) => by
      simp [extractFirstObject, extractFirstObject_idem x]
  | .obj fields => by
      simp [extractFirstObject, extractFirstObjectFields_idem fields]

theorem extractFirstObjectFields_idem : ∀ l : JsonFields,
    extractFirstObjectFields (extractFirstObjectFields l) = extractFirstObjectFields l
  | .nil => rfl
  | .fcons k v t => by
      simp [extractFirstObjectFields, extractFirstObject_idem v,
        extractFirstObjectFields_idem t]

end

theorem extractFirstObjectFields_keys : ∀ l : JsonFields,
    (extractFirstObjectFields l).keys = l.keys
  | .nil => rfl
  | .fcons _ v t => by
      simp [extractFirstObjectFields, JsonFields.keys, extractFirstObjectFields_keys t]

mutual

theorem arraysShort_extractFirstObject : ∀ j : Json,
    arraysShort (extractFirstObject j) = true
  | .null => rfl
  | .bool _ => rfl
  | .num _ => rfl
  | .str _ => rfl
  | .arr .nil => rfl
  | .arr (.cons x _) => by
      simp [extractFirstObject, arraysShort, arraysShortItems, JsonItems.length,
        arraysShort_extractFirstObject x]
  | .obj fields => by
      simp [extractFirstObject, arraysShort, arraysShortFields_extractFirstObjectFields fields]

theorem arraysShortFields_extractFirstObjectFields : ∀ l : JsonFields,
    arraysShortFields (extractFirstObjectFields l) = true
  | .nil => rfl
  | .fcons _ v t => by
      simp [extractFirstObjectFields, arraysShortFields, arraysShort_extractFirstObject v,
        arraysShortFields_extractFirstObjectFields t]

end

/-- A value nested `n` arrays deep around a numeric leaf; used to probe
the depth behavior of the summarizers. -/
def deepNest : Nat → Json
  | 0 => .num 1
  | n + 1 => .arr (.cons (deepNest n) .nil)

mutual

theorem jsonDepth_summarizeJsonStructureV1 : ∀ (j : Json) (d : Nat),
    jsonDepth (summarizeJsonStructureV1 j d) ≤ 6 - min d 6
  | .null, d => by
      rw [summarizeJsonStructureV1.eq_def]
      by_cases hd : 5 < d <;> simp [hd, jsonDepth]
  | .bool _, d => by
      rw [summarizeJsonStructureV1.eq_def]
      by_cases hd : 5 < d <;> simp [hd, jsonDepth]
  | .num _, d => by
      rw [summarizeJsonStructureV1.eq_def]
      by_cases hd : 5 < d <;> simp [hd, jsonDepth]
  | .str s, d => by
      rw [summarizeJsonStructureV1.eq_def]
      by_cases hd : 5 < d
      · simp [hd, jsonDepth]
      · simp only [if_neg hd]
        split <;> simp [jsonDepth]
  | .arr .nil, d => by
      rw [summarizeJsonStructureV1.eq_def]
      by_cases hd : 5 < d
      · simp [hd, jsonDepth]
      · simp [hd, jsonDepth, jsonDepthItems]
        omega
  | .arr (.cons x _), d => by
      have hx := jsonDepth_summarizeJsonStructureV1 x (d + 1)
      rw [summarizeJsonStructureV1.eq_def]
      by_cases hd : 5 < d
      · simp [hd, jsonDepth]
      · simp only [if_neg hd, jsonDepth, jsonDepthItems]
        omega
  | .obj fields, d => by
      have hf := jsonDepthFields_summarizeFieldsV1 fields d
      rw [summarizeJsonStructureV1.eq_def]
      by_cases hd : 5 < d
      · simp [hd, jsonDepth]
      · simp only [if_neg hd, jsonDepth]
        omega

theorem jsonDepthFields_summarizeFieldsV1 : ∀ (l : JsonFields) (d : Nat),
    jsonDepthFields (summarizeFieldsV1 l d) ≤ 6 - min (d + 1) 6
  | .nil, d => by simp [summarizeFieldsV1, jsonDepthFields]
  | .fcons _ v t, d => by
      have hv := jsonDepth_summarizeJsonStructureV1 v (d + 1)
      have ht := jsonDepthFields_summarizeFieldsV1 t d
      rw [summarizeFieldsV1]
      simp only [jsonDepthFields]
      omega

end

/-! ## Claims about the structural summarizer -/

/-- C5: the structural summarizer (`summarizeJsonStructure` in
`src/services/harUtils.ts`, which delegates to `extractFirstObject`) maps
every empty array to an empty array and every non-empty array to the
one-element array holding the summary of the first element, preserves all
object keys, and every array anywhere in its output has at most one
element — so at every nesting level non-empty arrays come out with length
exactly one. -/
theorem summarizer_array_shape :
    (∀ d : Nat, summarizeJsonStructure (Json.arr .nil) d = Json.arr .nil)
    ∧ (∀ (d : Nat) (x : Json) (xs : JsonItems),
        summarizeJsonStructure (Json.arr (.cons x xs)) d
          = Json.arr (.cons (summarizeJsonStructure x d) .nil))
    ∧ (∀ (d : Nat) (fields : JsonFields), ∃ l : JsonFields,
        summarizeJsonStructure (Json.obj fields) d = Json.obj l ∧ l.keys = fields.keys)
    ∧ (∀ (d : Nat) (j : Json), arraysShort (summarizeJsonStructure j d) = true) := by
  refine ⟨fun _ => rfl, fun _ _ _ => rfl, fun _ fields => ?_, fun _ j => arraysShort_extractFirstObject j⟩
  exact ⟨extractFirstObjectFields fields, rfl, extractFirstObjectFields_keys fields⟩

/-- C9: the structural summarizer is idempotent: summarizing a summary
changes nothing, whatever depth arguments are passed (the function ignores
them). -/
theorem summarizer_idempotent (j : Json) (d d' : Nat) :
    summarizeJsonStructure (summarizeJsonStructure j d) d' = summarizeJsonStructure j d :=
  extractFirstObject_idem j

/-- C6, counterexample: the summarizer actually wired up in
`src/services/harUtils.ts` enforces no recursion-depth ceiling — the value
`deepNest 8`, nested 8 levels deep, passes through unchanged and no
depth-exceeded marker appears in the output. -/
theorem summarizer_no_depth_ceiling :
    (¬ ∀ j : Json, 5 < jsonDepth j → hasDepthMarker (summarizeJsonStructure j 0) = true)
    ∧ summarizeJsonStructure (deepNest 8) 0 = deepNest 8
    ∧ jsonDepth (deepNest 8) = 8 := by
  refine ⟨fun h => absurd (h (deepNest 8) (by decide)) (by decide), rfl, by decide⟩

/-- C6, amended: the recursion-depth ceiling belongs to the historical
summarizer variant of `src/unnamed/part_003`: that variant replaces every
sub-value reached at recursion depth greater than 5 by the marker string
`... (max depth)`, and consequently the nesting depth of its output from a
depth-0 call never exceeds 6. -/
theorem summarizer_v1_depth_ceiling :
    (∀ (j : Json) (d : Nat), 5 < d → summarizeJsonStructureV1 j d = Json.str "... (max depth)")
    ∧ (∀ j : Json, jsonDepth (summarizeJsonStructureV1 j 0) ≤ 6) := by
  constructor
  · intro j d hd
    rw [summarizeJsonStructureV1.eq_def]
    simp [hd]
  · intro j
    have := jsonDepth_summarizeJsonStructureV1 j 0
    simpa using this

/-- C6, witness for the amended theorem: at depth 6 a numeric leaf is
already replaced by the marker, and the deeply nested probe summarizes to
nesting depth at most 6. -/
theorem summarizer_v1_depth_ceiling_witness :
    summarizeJsonStructureV1 (Json.num 1) 6 = Json.str "... (max depth)"
    ∧ jsonDepth (summarizeJsonStructureV1 (deepNest 8) 0) ≤ 6 :=
  ⟨summarizer_v1_depth_ceiling.1 (Json.num 1) 6 (by decide),
    summarizer_v1_depth_ceiling.2 (deepNest 8)⟩

/-! ## Claims about the sandboxed extraction-code runner -/

/-- The script outcome throws an exception. -/
def throwsOutcome (r : ScriptResult) : Prop :=
  ∃ (m : String) (logs : List String), r = .throws m logs

/-- The script outcome completes with a value that is not an array
(including JS `undefined`). -/
def completesNonArray (r : ScriptResult) : Prop :=
  ∃ (v : Option Json) (res : List Json) (logs : List String),
    r = .completes v res logs ∧ ∀ xs : JsonItems, v ≠ some (Json.arr xs)

/-- A script behavior that returns the plain number 42 — not an array —
without throwing and without touching the accumulator. -/
def script42 : List HarEntryW → ScriptResult :=
  fun _ => .completes (some (Json.num 42)) [] []

/-- C2, counterexample: the claim that the executor fails exactly when the
script throws or returns a non-array is false — a script that completes
with the non-array value 42 still produces a success result (the code
falls back to the empty accumulator).  Failure is triggered by throwing
only. -/
theorem run_extraction_nonarray_still_success :
    (¬ ∀ (script : List HarEntryW → ScriptResult) (entries : List HarEntryW),
        ((runExtractionCodeImpl script entries).success = false ↔
          (throwsOutcome (script (activeEntriesOf entries))
            ∨ completesNonArray (script (activeEntriesOf entries)))))
    ∧ (runExtractionCodeImpl script42 []).success = true
    ∧ completesNonArray (script42 (activeEntriesOf [])) := by
  have hna : completesNonArray (script42 (activeEntriesOf [])) :=
    ⟨some (Json.num 42), [], [], rfl, fun xs h => by simp [script42] at h⟩
  refine ⟨fun h => ?_, rfl, hna⟩
  have := (h script42 []).mpr (Or.inr hna)
  simp [runExtractionCodeImpl, script42, activeEntriesOf] at this

/-- C2, amended: the executor returns `{success: false, error, logs}`
exactly when the script throws, in which case the thrown message and the
logs collected so far are returned; on completion it returns
`{success: true, data, logs}` where `data` is the returned array if the
script returned one and the accumulator contents otherwise.  The function
is total, so an evaluation exception never escapes to the caller. -/
theorem run_extraction_result_spec (script : List HarEntryW → ScriptResult)
    (entries : List HarEntryW) :
    ((runExtractionCodeImpl script entries).success = false ↔
      throwsOutcome (script (activeEntriesOf entries)))
    ∧ (∀ (m : String) (logs : List String),
        script (activeEntriesOf entries) = .throws m logs →
        runExtractionCodeImpl script entries
          = ⟨false, none, none, some m, logs⟩)
    ∧ (∀ (v : Option Json) (res : List Json) (logs : List String),
        script (activeEntriesOf entries) = .completes v res logs →
        runExtractionCodeImpl script entries
          = ⟨true, some (extractedOf v res).length, some (extractedOf v res), none, logs⟩) := by
  refine ⟨?_, ?_, ?_⟩
  · match hr : script (activeEntriesOf entries) with
    | .throws m logs =>
        have hfail : (runExtractionCodeImpl script entries).success = false := by
          simp [runExtractionCodeImpl, hr]
        exact ⟨fun _ => ⟨m, logs, rfl⟩, fun _ => hfail⟩
    | .completes v res logs =>
        have hok : (runExtractionCodeImpl script entries).success = true := by
          simp [runExtractionCodeImpl, hr]
        constructor
        · intro hfalse
          rw [hok] at hfalse
          cases hfalse
        · rintro ⟨m, l, hml⟩
          exact ScriptResult.noConfusion hml
  · intro m logs hr
    simp [runExtractionCodeImpl, hr]
  · intro v res logs hr
    simp [runExtractionCodeImpl, hr]

/-- A script behavior that throws with message `boom`. -/
def scriptBoom : List HarEntryW → ScriptResult :=
  fun _ => .throws "boom" []

/-- C2, witness for the amended theorem: a throwing script yields the
structured error result. -/
theorem run_extraction_result_spec_witness :
    runExtractionCodeImpl scriptBoom [] = ⟨false, none, none, some "boom", []⟩ :=
  (run_extraction_result_spec scriptBoom []).2.1 "boom" [] rfl

/-! ## Claims about tool dispatch and the bounded loop -/

/-- C8: dispatching a tool name that is absent from the implementation map
yields the structured unknown-tool error naming the tool (and, being a
total function, cannot throw); the loop body turns it into an ordinary
function response forwarded to the model, and the loop then proceeds to
the next exchange exactly as for any other result. -/
theorem unknown_tool_dispatch (impls : ToolRegistry) (name : String)
    (habsent : impls name = none) :
    (∀ (harData : List HarEntryW) (args : Json) (cid : Option String),
        dispatchCall impls harData ⟨cid, name, args⟩ = unknownToolError name)
    ∧ (∀ (harData : List HarEntryW) (calls : List FunctionCall) (c : FunctionCall),
        c ∈ calls → c.name = name →
        (⟨c.id, c.name, unknownToolError name⟩ : FunctionResponse)
          ∈ runToolCalls impls harData calls)
    ∧ (∀ (model : AgentModel) (harData : List HarEntryW) (resp : ModelResponse)
        (turns : Nat) (sent : List (List FunctionResponse)) (fuel : Nat),
        0 < resp.functionCalls.length → turns < 5 →
        agentLoop model impls harData (fuel + 1) resp turns sent
          = agentLoop model impls harData fuel
              (model (sent ++ [runToolCalls impls harData resp.functionCalls]))
              (turns + 1) (sent ++ [runToolCalls impls harData resp.functionCalls])) := by
  refine ⟨?_, ?_, ?_⟩
  · intro harData args cid
    simp [dispatchCall, habsent]
  · intro harData calls c hc hname
    simp only [runToolCalls, List.mem_map]
    exact ⟨c, hc, by simp [dispatchCall, hname, habsent]⟩
  · intro model harData resp turns sent fuel hcalls hturns
    simp [agentLoop, hcalls, hturns]

/-- C8, witness: a registry with no implementations dispatches the name
`kg_zap` to the unknown-tool error object. -/
theorem unknown_tool_dispatch_witness :
    dispatchCall (fun _ => none) [] ⟨none, "kg_zap", Json.null⟩ = unknownToolError "kg_zap" :=
  (unknown_tool_dispatch (fun _ => none) "kg_zap" rfl).1 [] Json.null none

theorem agentLoop_turns_le (model : AgentModel) (impls : ToolRegistry)
    (harData : List HarEntryW) :
    ∀ (fuel : Nat) (resp : ModelResponse) (turns : Nat) (sent : List (List FunctionResponse)),
      (agentLoop model impls harData fuel resp turns sent).2 ≤ max turns 5 := by
  intro fuel
  induction fuel with
  | zero => intro resp turns sent; simp [agentLoop]
  | succ fuel ih =>
      intro resp turns sent
      rw [agentLoop]
      by_cases hg : 0 < resp.functionCalls.length ∧ turns < 5
      · rw [if_pos hg]
        show (agentLoop model impls harData fuel
          (model (sent ++ [runToolCalls impls harData resp.functionCalls]))
          (turns + 1) (sent ++ [runToolCalls impls harData resp.functionCalls])).2 ≤ max turns 5
        have := ih (model (sent ++ [runToolCalls impls harData resp.functionCalls]))
          (turns + 1) (sent ++ [runToolCalls impls harData resp.functionCalls])
        omega
      · rw [if_neg hg]
        simp

theorem agentLoop_always_calls (model : AgentModel) (impls : ToolRegistry)
    (harData : List HarEntryW)
    (hmodel : ∀ s, 0 < (model s).functionCalls.length) :
    ∀ (fuel turns : Nat) (sent : List (List FunctionResponse)),
      turns + fuel = 5 → sent.length = turns →
      ∃ sFin : List (List FunctionResponse),
        agentLoop model impls harData fuel (model sent) turns sent = (model sFin, 5)
          ∧ sFin.length = 5 := by
  intro fuel
  induction fuel with
  | zero =>
      intro turns sent hsum hlen
      refine ⟨sent, ?_, by omega⟩
      simp [agentLoop]
      omega
  | succ fuel ih =>
      intro turns sent hsum hlen
      rw [agentLoop, if_pos ⟨hmodel sent, by omega⟩]
      exact ih (turns + 1) (sent ++ [runToolCalls impls harData (model sent).functionCalls])
        (by omega) (by simp [hlen])

/-- C1: for every model behavior the tool-dispatch loop of `runHarAgent`
executes at most 5 round-trips; a mock model that requests tool calls in
every response drives it to exactly 5 exchanges, after which the loop
stops and `runHarAgent` returns the text of the last response received
(subject to the placeholder fallback for missing or empty text). -/
theorem agent_loop_bounded (model : AgentModel) (impls : ToolRegistry)
    (harData : List HarEntryW) :
    ((agentLoop model impls harData 5 (model []) 0 []).2 ≤ 5)
    ∧ ((∀ s, 0 < (model s).functionCalls.length) →
        ∃ sFin : List (List FunctionResponse),
          agentLoop model impls harData 5 (model []) 0 [] = (model sFin, 5)
            ∧ sFin.length = 5
            ∧ runHarAgent model impls harData
                = jsStringOr (model sFin).text
                    "I processed the actions but have no text response.") := by
  constructor
  · simpa using agentLoop_turns_le model impls harData 5 (model []) 0 []
  · intro hmodel
    obtain ⟨sFin, heq, hlen⟩ :=
      agentLoop_always_calls model impls harData hmodel 5 0 [] rfl rfl
    refine ⟨sFin, heq, hlen, ?_⟩
    simp only [runHarAgent, heq]

/-- A mock model that requests one tool call in every reply. -/
def mockAlwaysCalls : AgentModel :=
  fun _ => ⟨[⟨none, "get_har_structure", Json.null⟩], some "looping"⟩

/-- C1, witness: driving the loop with the always-calling mock model and
an empty registry halts at turn 5 and returns the last text. -/
theorem agent_loop_bounded_witness :
    (agentLoop mockAlwaysCalls (fun _ => none) [] 5 (mockAlwaysCalls []) 0 []).2 = 5
    ∧ runHarAgent mockAlwaysCalls (fun _ => none) [] = "looping" := by
  obtain ⟨sFin, heq, _, hrun⟩ :=
    (agent_loop_bounded mockAlwaysCalls (fun _ => none) []).2
      (fun _ => by simp [mockAlwaysCalls])
  exact ⟨by rw [heq], by rw [hrun]; simp [mockAlwaysCalls, jsStringOr]⟩

/-! ## Claims about the graph node-creation tool -/

/-- C10: `kg_create_node` appends the new node unconditionally — the
resulting node list is always the old list plus the new node, with no id
check — so calling it with an explicit id that already identifies a node
leaves two distinct nodes sharing that id, breaking the unique-id
invariant the batch-merge path maintains. -/
theorem kg_create_node_duplicates (kg : KnowledgeGraphData) (label ty : String)
    (data : JsonFields) (x generatedId : String) (hx : x ≠ "") :
    ((kgCreateNodeImpl kg label ty data (some x) generatedId).1.nodes
        = kg.nodes ++ [⟨x, ty, label, data⟩])
    ∧ ((∃ n ∈ kg.nodes, n.id = x) →
        2 ≤ (((kgCreateNodeImpl kg label ty data (some x) generatedId).1.nodes.map
              (fun n => n.id)).count x)) := by
  have hnodes : (kgCreateNodeImpl kg label ty data (some x) generatedId).1.nodes
      = kg.nodes ++ [⟨x, ty, label, data⟩] := by
    simp [kgCreateNodeImpl, jsStringOr, hx]
  refine ⟨hnodes, ?_⟩
  rintro ⟨n, hn, hid⟩
  rw [hnodes, List.map_append, List.count_append]
  have hmem : x ∈ kg.nodes.map (fun n => n.id) :=
    hid ▸ List.mem_map_of_mem _ hn
  have h1 : 0 < (kg.nodes.map (fun n => n.id)).count x := List.count_pos_iff.mpr hmem
  have h2 : (([⟨x, ty, label, data⟩] : List ExtractedEntity).map (fun n => n.id)).count x = 1 := by
    simp
  omega

/-- C10, witness: creating a node with explicit id `p1` in a graph that
already holds a `p1` node leaves the id `p1` occurring twice. -/
theorem kg_create_node_duplicates_witness :
    2 ≤ (((kgCreateNodeImpl ⟨[⟨"p1", "Project", "P", .nil⟩], []⟩ "L" "T" .nil
          (some "p1") "gen").1.nodes.map (fun n => n.id)).count "p1") :=
  (kg_create_node_duplicates ⟨[⟨"p1", "Project", "P", .nil⟩], []⟩ "L" "T" .nil "p1" "gen"
    (by decide)).2 ⟨⟨"p1", "Project", "P", .nil⟩, by simp, rfl⟩

/-! ## Claims about the knowledge-graph batch merge -/

theorem mergeNodesOf_cases (st : KnowledgeGraphData) (e : ExtractedEntity) :
    mergeNodesOf st e = st.nodes
      ∨ (mergeNodesOf st e = st.nodes ++ [e] ∧ ∀ n ∈ st.nodes, n.id ≠ e.id) := by
  by_cases h : (st.nodes.find? (fun n => n.id == e.id)).isSome
  · left
    simp [mergeNodesOf, h]
  · right
    refine ⟨by simp [mergeNodesOf, h], ?_⟩
    intro n hn heq
    have hnone : st.nodes.find? (fun n => n.id == e.id) = none :=
      Option.not_isSome_iff_eq_none.mp h
    have := List.find?_eq_none.mp hnone n hn
    simp [heq] at this

theorem handleAddEntityStep_nodes (st : KnowledgeGraphData) (e : ExtractedEntity) :
    (handleAddEntityStep st e).nodes = mergeNodesOf st e := rfl

theorem handleAddEntity_cons (st : KnowledgeGraphData) (e : ExtractedEntity)
    (rest : List ExtractedEntity) :
    handleAddEntity st (e :: rest) = handleAddEntity (handleAddEntityStep st e) rest := rfl

theorem handleAddEntity_nodes_extend (batch : List ExtractedEntity) :
    ∀ st : KnowledgeGraphData, ∃ added : List ExtractedEntity,
      (handleAddEntity st batch).nodes = st.nodes ++ added := by
  induction batch with
  | nil => exact fun st => ⟨[], by simp [handleAddEntity]⟩
  | cons e rest ih =>
      intro st
      obtain ⟨a2, h2⟩ := ih (handleAddEntityStep st e)
      rw [handleAddEntity_cons, h2, handleAddEntityStep_nodes]
      rcases mergeNodesOf_cases st e with h1 | ⟨h1, _⟩
      · exact ⟨a2, by rw [h1]⟩
      · exact ⟨[e] ++ a2, by rw [h1, List.append_assoc]⟩

theorem mergeNodesOf_ids (st : KnowledgeGraphData) (e : ExtractedEntity) :
    ((mergeNodesOf st e).map (fun n => n.id) = st.nodes.map (fun n => n.id))
      ∨ ((mergeNodesOf st e).map (fun n => n.id) = st.nodes.map (fun n => n.id) ++ [e.id]
          ∧ e.id ∉ st.nodes.map (fun n => n.id)) := by
  rcases mergeNodesOf_cases st e with h | ⟨h, hall⟩
  · left
    rw [h]
  · right
    refine ⟨by rw [h]; simp, ?_⟩
    intro hmem
    obtain ⟨n, hn, hid⟩ := List.mem_map.mp hmem
    exact hall n hn hid

theorem handleAddEntity_count (batch : List ExtractedEntity) :
    ∀ (st : KnowledgeGraphData) (x : String), x ∈ st.nodes.map (fun n => n.id) →
      ((handleAddEntity st batch).nodes.map (fun n => n.id)).count x
        = (st.nodes.map (fun n => n.id)).count x := by
  induction batch with
  | nil => intro st x _; rfl
  | cons e rest ih =>
      intro st x hx
      rw [handleAddEntity_cons]
      rcases mergeNodesOf_ids st e with h | ⟨h, hnot⟩
      · have hx' : x ∈ (handleAddEntityStep st e).nodes.map (fun n => n.id) := by
          rw [handleAddEntityStep_nodes, h]; exact hx
        rw [ih (handleAddEntityStep st e) x hx', handleAddEntityStep_nodes, h]
      · have hx' : x ∈ (handleAddEntityStep st e).nodes.map (fun n => n.id) := by
          rw [handleAddEntityStep_nodes, h]
          exact List.mem_append_left _ hx
        rw [ih (handleAddEntityStep st e) x hx', handleAddEntityStep_nodes, h,
          List.count_append]
        have hxe : x ≠ e.id := fun hcontra => hnot (hcontra ▸ hx)
        simp [List.count_singleton, hxe]

theorem handleAddEntity_nodup (batch : List ExtractedEntity) :
    ∀ st : KnowledgeGraphData, (st.nodes.map (fun n => n.id)).Nodup →
      ((handleAddEntity st batch).nodes.map (fun n => n.id)).Nodup := by
  induction batch with
  | nil => exact fun st h => h
  | cons e rest ih =>
      intro st hnd
      rw [handleAddEntity_cons]
      refine ih (handleAddEntityStep st e) ?_
      rw [handleAddEntityStep_nodes]
      rcases mergeNodesOf_ids st e with h | ⟨h, hnot⟩
      · rw [h]; exact hnd
      · rw [h, List.nodup_append]
        exact ⟨hnd, List.nodup_singleton _, by
          intro a ha hb
          rw [List.mem_singleton.mp hb] at ha
          exact hnot ha⟩

/-- C4: the batch merge of `handleAddEntity` never duplicates or
overwrites: the resulting node list is always the old node list (every
existing node unchanged, in place) followed by some newly added nodes; the
id of an entity that already names an existing node occurs exactly as
often after the merge as before (so no duplicate is inserted); and
uniqueness of node ids is preserved. -/
theorem merge_preserves_existing (prev : KnowledgeGraphData) (batch : List ExtractedEntity) :
    (∃ added : List ExtractedEntity, (handleAddEntity prev batch).nodes = prev.nodes ++ added)
    ∧ ((prev.nodes.map (fun n => n.id)).Nodup →
        ((handleAddEntity prev batch).nodes.map (fun n => n.id)).Nodup)
    ∧ (∀ e ∈ batch, (∃ n ∈ prev.nodes, n.id = e.id) →
        ((handleAddEntity prev batch).nodes.map (fun n => n.id)).count e.id
          = (prev.nodes.map (fun n => n.id)).count e.id) :=
  ⟨handleAddEntity_nodes_extend batch prev,
    handleAddEntity_nodup batch prev,
    fun e _ he => by
      obtain ⟨n, hn, hid⟩ := he
      exact handleAddEntity_count batch prev e.id (hid ▸ List.mem_map_of_mem _ hn)⟩

/-- The sample node and entity used to exercise the merge claims. -/
def nodeP1 : ExtractedEntity := ⟨"p1", "Project", "Project", .nil⟩

/-- A second entity carrying the id of `nodeP1`. -/
def cloneP1 : ExtractedEntity := ⟨"p1", "Task", "Task", .nil⟩

/-- C4, witness: merging an entity whose id `p1` already exists keeps the
node-id list duplicate-free and keeps the count of `p1` at one. -/
theorem merge_preserves_existing_witness :
    ((handleAddEntity ⟨[nodeP1], []⟩ [cloneP1]).nodes.map (fun n => n.id)).Nodup
    ∧ ((handleAddEntity ⟨[nodeP1], []⟩ [cloneP1]).nodes.map (fun n => n.id)).count "p1" = 1 := by
  have h := merge_preserves_existing ⟨[nodeP1], []⟩ [cloneP1]
  refine ⟨h.2.1 (by simp), ?_⟩
  have hc := h.2.2 cloneP1 (by simp) ⟨nodeP1, by simp, rfl⟩
  simpa [nodeP1, cloneP1] using hc

/-! ## Claims about the auto-linking heuristic -/

theorem autoLinkStep_mono (nodes : List ExtractedEntity) (entity : ExtractedEntity)
    (links : List KnowledgeLink) (kv : String × Json) (l : KnowledgeLink) (hl : l ∈ links) :
    l ∈ autoLinkStep nodes entity links kv := by
  rcases kv with ⟨k, val⟩
  cases val <;> simp only [autoLinkStep] <;> try exact hl
  by_cases hkey : (jsEndsWith k "Id" || k == "id") = true
  · simp only [hkey, if_true]
    cases hf : nodes.find? (fun n => n.id == _ && n.id != entity.id) <;>
      cases hr : nodes.find? (fun n => dataIdEquals n _ && n.id != entity.id) <;>
        simp [hf, hr, hl]
  · simp only [hkey]
    simp [hl]

theorem foldl_autoLinkStep_mono (nodes : List ExtractedEntity) (entity : ExtractedEntity) :
    ∀ (pairs : List (String × Json)) (links : List KnowledgeLink) (l : KnowledgeLink),
      l ∈ links → l ∈ pairs.foldl (autoLinkStep nodes entity) links := by
  intro pairs
  induction pairs with
  | nil => exact fun links l hl => hl
  | cons p rest ih =>
      intro links l hl
      rw [List.foldl_cons]
      exact ih _ l (autoLinkStep_mono nodes entity links p l hl)

theorem autoLinkStep_fire_forward (nodes : List ExtractedEntity) (entity : ExtractedEntity)
    (links : List KnowledgeLink) (key v : String) (t : ExtractedEntity)
    (hkey : (jsEndsWith key "Id" || key == "id") = true)
    (hf : nodes.find? (fun n => n.id == v && n.id != entity.id) = some t) :
    (⟨entity.id, t.id, key⟩ : KnowledgeLink) ∈ autoLinkStep nodes entity links (key, Json.str v) := by
  simp only [autoLinkStep, hkey, if_true]
  cases hr : nodes.find? (fun n => dataIdEquals n v && n.id != entity.id) <;>
    simp [hf, hr]

theorem autoLinkStep_fire_reverse (nodes : List ExtractedEntity) (entity : ExtractedEntity)
    (links : List KnowledgeLink) (key v : String) (s : ExtractedEntity)
    (hkey : (jsEndsWith key "Id" || key == "id") = true)
    (hr : nodes.find? (fun n => dataIdEquals n v && n.id != entity.id) = some s) :
    (⟨s.id, entity.id, key⟩ : KnowledgeLink) ∈ autoLinkStep nodes entity links (key, Json.str v) := by
  simp only [autoLinkStep, hkey, if_true]
  cases hf : nodes.find? (fun n => n.id == v && n.id != entity.id) <;>
    simp [hf, hr]

theorem foldl_autoLinkStep_of_fire (nodes : List ExtractedEntity) (entity : ExtractedEntity)
    (kv : String × Json) (l : KnowledgeLink)
    (hfire : ∀ links : List KnowledgeLink, l ∈ autoLinkStep nodes entity links kv) :
    ∀ (pairs : List (String × Json)) (links : List KnowledgeLink), kv ∈ pairs →
      l ∈ pairs.foldl (autoLinkStep nodes entity) links := by
  intro pairs
  induction pairs with
  | nil => intro links h; cases h
  | cons p rest ih =>
      intro links hmem
      rw [List.foldl_cons]
      rcases List.mem_cons.mp hmem with hp | hp
      · rw [← hp]
        exact foldl_autoLinkStep_mono nodes entity rest _ l (hfire links)
      · exact ih _ hp

/-- The `Task` entity of the worked example, whose data carries a
`projectId` reference to `p1`. -/
def entityT1 : ExtractedEntity := ⟨"t1", "Task", "Task", .fcons "projectId" (.str "p1") .nil⟩

/-- C3: during a merge, for every string-valued id-like key of a new
entity, the linker adds the forward edge to the first merged node whose id
equals the value (that node really has that id and is not the entity
itself) and, independently, the reverse edge from the first merged node
whose `data.id` equals the value; and on the worked example — entity
`t1` with `projectId: p1` merged into a graph holding only node `p1` —
the merge produces exactly the single edge
`{source: t1, target: p1, label: projectId}`. -/
theorem auto_link_edges :
    (∀ (st : KnowledgeGraphData) (entity : ExtractedEntity) (key v : String),
      (key, Json.str v) ∈ entity.data.toList →
      (jsEndsWith key "Id" || key == "id") = true →
      (∀ t : ExtractedEntity,
        (mergeNodesOf st entity).find? (fun n => n.id == v && n.id != entity.id) = some t →
        t.id = v ∧ t.id ≠ entity.id
          ∧ (⟨entity.id, t.id, key⟩ : KnowledgeLink) ∈ (handleAddEntityStep st entity).links)
      ∧ (∀ s : ExtractedEntity,
        (mergeNodesOf st entity).find? (fun n => dataIdEquals n v && n.id != entity.id) = some s →
        dataIdEquals s v = true ∧ s.id ≠ entity.id
          ∧ (⟨s.id, entity.id, key⟩ : KnowledgeLink) ∈ (handleAddEntityStep st entity).links))
    ∧ handleAddEntity ⟨[nodeP1], []⟩ [entityT1]
        = ⟨[nodeP1, entityT1], [⟨"t1", "p1", "projectId"⟩]⟩ := by
  constructor
  · intro st entity key v hmem hkey
    constructor
    · intro t hf
      have hp := List.find?_some hf
      rw [Bool.and_eq_true, beq_iff_eq, bne_iff_ne] at hp
      refine ⟨hp.1, hp.2, ?_⟩
      exact foldl_autoLinkStep_of_fire (mergeNodesOf st entity) entity (key, Json.str v) _
        (fun links => autoLinkStep_fire_forward _ entity links key v t hkey hf)
        entity.data.toList st.links hmem
    · intro s hr
      have hp := List.find?_some hr
      rw [Bool.and_eq_true, bne_iff_ne] at hp
      refine ⟨hp.1, hp.2, ?_⟩
      exact foldl_autoLinkStep_of_fire (mergeNodesOf st entity) entity (key, Json.str v) _
        (fun links => autoLinkStep_fire_reverse _ entity links key v s hkey hr)
        entity.data.toList st.links hmem
  · rfl

/-- C3, witness: on the worked example the forward search finds `p1` and
the produced edge is in the merged links. -/
theorem auto_link_edges_witness :
    (⟨"t1", "p1", "projectId"⟩ : KnowledgeLink)
      ∈ (handleAddEntityStep ⟨[nodeP1], []⟩ entityT1).links := by
  have h := (auto_link_edges.1 ⟨[nodeP1], []⟩ entityT1 "projectId" "p1"
    (by simp [entityT1, JsonFields.toList]) (by decide)).1 nodeP1 rfl
  exact h.2.2

/-! ## Claims about deletion of scraping entries -/

/-- A synced sample row of the Knowledge DB. -/
def sampleEntry : ScrapingEntry :=
  ⟨"r1", "GET:/api/items", "https://shop.example/api/items", Json.null, Json.null,
    .nil, "", .nil, .unprocessed, false, "t0", "t0"⟩

/-- C7, counterexample: not every delete path is a soft delete — the
`delete_scraping_entry` tool calls the store action that filters the row
out of the list, physically removing it: after deleting the sample row by
its id the store is empty and the row is no longer retrievable. -/
theorem delete_tool_hard_deletes :
    (¬ ∀ (entries : List ScrapingEntry) (id : String),
        (deleteScrapingEntryImpl entries id).map (fun e => e.id)
          = entries.map (fun e => e.id))
    ∧ deleteScrapingEntryImpl [sampleEntry] "r1" = []
    ∧ dbFindRow (deleteScrapingEntryImpl [sampleEntry] "r1") "r1" = none := by
  refine ⟨fun h => ?_, rfl, rfl⟩
  have := h [sampleEntry] "r1"
  simp [deleteScrapingEntryImpl, deleteScrapingEntryStore, sampleEntry] at this

theorem find?_id_of_map (g : ScrapingEntry → ScrapingEntry) (hg : ∀ a, (g a).id = a.id)
    (rid : String) :
    ∀ l : List ScrapingEntry,
      (l.map g).find? (fun e => e.id == rid) = (l.find? (fun e => e.id == rid)).map g := by
  intro l
  induction l with
  | nil => rfl
  | cons e rest ih =>
      rw [List.map_cons, List.find?_cons, List.find?_cons]
      by_cases h : (e.id == rid) = true <;> simp [hg e, h, ih]

theorem updateScrapingEntry_ids (entries : List ScrapingEntry) (rid now : String)
    (f : ScrapingEntry → ScrapingEntry) (hf : ∀ e, (f e).id = e.id) :
    (updateScrapingEntry entries rid f now).map (fun e => e.id)
      = entries.map (fun e => e.id) := by
  have hg : ∀ a : ScrapingEntry,
      ((if a.id == rid then ({ f a with updated_at := now } : ScrapingEntry) else a)).id
        = a.id := by
    intro a
    by_cases ha : (a.id == rid) = true <;> simp [ha, hf]
  induction entries with
  | nil => rfl
  | cons e rest ih =>
      simp only [updateScrapingEntry, List.map_cons] at ih ⊢
      rw [hg e, ih]

theorem dbDeleteRow_id_of_apply (rid now : String) (a : ScrapingEntry) :
    ((if a.id == rid
      then ({ a with is_deleted := true, updated_at := now } : ScrapingEntry) else a)).id
      = a.id := by
  by_cases ha : (a.id == rid) = true <;> simp [ha]

theorem dbFindRow_dbDeleteRow (entries : List ScrapingEntry) (rid now : String) :
    dbFindRow (dbDeleteRowImpl entries rid now) rid
      = (dbFindRow entries rid).map
          (fun e => { e with is_deleted := true, updated_at := now }) := by
  simp only [dbFindRow, dbDeleteRowImpl, updateScrapingEntry]
  rw [find?_id_of_map _ (dbDeleteRow_id_of_apply rid now) rid entries]
  cases hfind : entries.find? (fun e => e.id == rid) with
  | none => rfl
  | some a =>
      have hp : a.id = rid := by simpa using List.find?_some hfind
      simp [hp]

theorem foldl_listTablesStep_skips_deleted :
    ∀ (l : List ScrapingEntry) (acc : List (String × GroupAcc)),
      l.foldl listTablesStep acc
        = (l.filter (fun e => !e.is_deleted)).foldl listTablesStep acc := by
  intro l
  induction l with
  | nil => intro acc; rfl
  | cons e rest ih =>
      intro acc
      by_cases hdel : e.is_deleted
      · have hstep : listTablesStep acc e = acc := by simp [listTablesStep, hdel]
        simp [hdel, hstep, ih]
      · simp [hdel, ih]

/-- C7, amended: the `db_delete_row` path is a soft delete — it removes no
row (the id list is unchanged), leaves rows with other ids untouched,
changes only `is_deleted` and `updated_at` on the matching rows, and the
row stays retrievable by id via the `db_look_request` lookup (returning
the flagged version); the `db_look_tables` grouping ignores soft-deleted
rows, so the deleted row is excluded from the listing.  The
`delete_scraping_entry` tool path, by contrast, physically removes the
row (see the counterexample). -/
theorem soft_delete_spec (entries : List ScrapingEntry) (rid now : String) :
    ((dbDeleteRowImpl entries rid now).map (fun e => e.id) = entries.map (fun e => e.id))
    ∧ (∀ e ∈ entries, e.id ≠ rid → e ∈ dbDeleteRowImpl entries rid now)
    ∧ (∀ e ∈ entries, e.id = rid →
        ({ e with is_deleted := true, updated_at := now } : ScrapingEntry)
          ∈ dbDeleteRowImpl entries rid now)
    ∧ (dbFindRow (dbDeleteRowImpl entries rid now) rid
        = (dbFindRow entries rid).map
            (fun e => { e with is_deleted := true, updated_at := now }))
    ∧ (∀ l : List ScrapingEntry,
        dbListTablesImpl l = dbListTablesImpl (l.filter (fun e => !e.is_deleted))) := by
  refine ⟨updateScrapingEntry_ids entries rid now _ (fun e => rfl), ?_, ?_,
    dbFindRow_dbDeleteRow entries rid now, ?_⟩
  · intro e he hne
    have hid : ¬ (e.id == rid) = true := by simpa using hne
    simp only [dbDeleteRowImpl, updateScrapingEntry]
    refine List.mem_map.mpr ⟨e, he, ?_⟩
    simp [hid]
  · intro e he heq
    have hid : (e.id == rid) = true := by simpa using heq
    simp only [dbDeleteRowImpl, updateScrapingEntry]
    refine List.mem_map.mpr ⟨e, he, ?_⟩
    simp [hid]
  · intro l
    unfold dbListTablesImpl
    rw [foldl_listTablesStep_skips_deleted]

/-- C7, witness for the amended theorem: soft-deleting the sample row
keeps it in the store with only the flag and timestamp changed, it stays
retrievable by id, and the listing of the resulting store is empty. -/
theorem soft_delete_spec_witness :
    ({ sampleEntry with is_deleted := true, updated_at := "t1" } : ScrapingEntry)
      ∈ dbDeleteRowImpl [sampleEntry] "r1" "t1"
    ∧ dbFindRow (dbDeleteRowImpl [sampleEntry] "r1" "t1") "r1"
        = some { sampleEntry with is_deleted := true, updated_at := "t1" }
    ∧ dbListTablesImpl (dbDeleteRowImpl [sampleEntry] "r1" "t1") = [] := by
  have h := soft_delete_spec [sampleEntry] "r1" "t1"
  refine ⟨h.2.2.1 sampleEntry (by simp) rfl, h.2.2.2.1.trans rfl, ?_⟩
  exact (h.2.2.2.2 (dbDeleteRowImpl [sampleEntry] "r1" "t1")).trans rfl

end KnowledgeByAi
